import Mathlib

/-!
# Verification of terraform-moved-remover

Shallow embedding of the Go tool `terraform-moved-remover`, which parses
Terraform (HCL) files, removes every top-level `moved` block, re-renders,
optionally normalizes whitespace, and writes the result back.

The embedding follows `cmd/terraform-moved-remover/main.go` (the revision
with the `DryRun` flag, reproduced in the sources as `part_000`):

* a parsed HCL body is a list of top-level nodes, each either a block with
  a type label and an opaque body (the code never inspects anything beyond
  `block.Type()`), or non-block content such as attributes and comments;
* `body.Blocks()` returns a snapshot list of the current top-level blocks;
  the removal loop iterates that snapshot and calls `body.RemoveBlock` on
  each block whose type equals `"moved"`, which deletes exactly that
  occurrence from the body — modelled by `List.erase` on the snapshot fold;
* the HCL parser and printer (`hclwrite.ParseConfig`, `file.Bytes()`,
  `hclwrite.Format`) are external black boxes, passed in as function
  parameters `render` and `format`.
-/

/-- A top-level node of a parsed HCL body: either a block with a type label
and an opaque body (labels, attributes, nested blocks — never inspected by
the tool beyond the type label), or non-block content (attributes,
comments). -/
inductive Node where
  | block (btype : String) (body : String)
  | other (content : String)
deriving Repr, DecidableEq

/-- Whether a node is a block (membership in `body.Blocks()`). -/
def Node.isBlock : Node → Bool
  | .block _ _ => true
  | .other _ => false

/-- `block.Type()` in the Go code; only ever called on blocks. -/
def Node.typeLabel : Node → String
  | .block t _ => t
  | .other _ => ""

/-- Whether a node is a block whose type label equals `kind` exactly
(case-sensitive string equality, as in `block.Type() == "moved"`). -/
def Node.isBlockOfKind (kind : String) : Node → Bool
  | .block t _ => t == kind
  | .other _ => false

/-- Accumulator of the removal loop in `processFile`: the current body,
the running `movedBlocksCount`, and the `fileModified` flag. -/
structure ExtractState where
  body : List Node
  count : Nat
  modified : Bool
deriving Repr, DecidableEq

/-- One iteration of the removal loop: if the snapshot block's type equals
`kind`, remove that block from the body, bump the count and set the flag. -/
def extractStep (kind : String) (st : ExtractState) (blk : Node) : ExtractState :=
  if blk.typeLabel == kind then
    { body := st.body.erase blk, count := st.count + 1, modified := true }
  else st

/-- The removal loop of `processFile`: iterate over the snapshot
`body.Blocks()` (the blocks of the original body, in order) and remove
each block whose type equals `kind`. -/
def extractBlocks (doc : List Node) (kind : String) : ExtractState :=
  (doc.filter Node.isBlock).foldl (extractStep kind) ⟨doc, 0, false⟩

/-- On block nodes, the loop's type test agrees with `isBlockOfKind`. -/
theorem typeLabel_eq_iff_isBlockOfKind (kind : String) (n : Node) (h : n.isBlock = true) :
    (n.typeLabel == kind) = n.isBlockOfKind kind := by
  cases n with
  | block t b => rfl
  | other c => simp [Node.isBlock] at h

/-- Elements of the snapshot for which the type test fails leave the
accumulator unchanged, so the fold equals the fold over the matching
elements only. -/
theorem foldl_extractStep_filter (kind : String) (m : List Node)
    (hm : ∀ n ∈ m, n.isBlock = true) (st : ExtractState) :
    m.foldl (extractStep kind) st
      = (m.filter (Node.isBlockOfKind kind)).foldl (extractStep kind) st := by
  induction m generalizing st with
  | nil => rfl
  | cons n m ih =>
    have hn : n.isBlock = true := hm n (List.mem_cons_self n m)
    have hm' : ∀ x ∈ m, x.isBlock = true := fun x hx => hm x (List.mem_cons_of_mem n hx)
    by_cases hk : Node.isBlockOfKind kind n = true
    · rw [List.filter_cons_of_pos hk]
      simp only [List.foldl_cons]
      exact ih hm' _
    · have hk' : (n.typeLabel == kind) = false := by
        rw [typeLabel_eq_iff_isBlockOfKind kind n hn]
        exact Bool.not_eq_true _ ▸ hk
      rw [List.filter_cons_of_neg (by simpa using hk)]
      simp only [List.foldl_cons, extractStep, hk']
      simp only [Bool.false_eq_true, if_false]
      exact ih hm' st

/-- Folding the removal step over a list of matching blocks, starting from a
body headed by a non-matching node, keeps that head in place. -/
theorem foldl_extractStep_cons (kind : String) (n : Node)
    (hn : Node.isBlockOfKind kind n = false) (m : List Node)
    (hm : ∀ x ∈ m, Node.isBlockOfKind kind x = true) (l : List Node) (c : Nat) (b : Bool) :
    m.foldl (extractStep kind) ⟨n :: l, c, b⟩
      = (let r := m.foldl (extractStep kind) ⟨l, c, b⟩
         ⟨n :: r.body, r.count, r.modified⟩) := by
  induction m generalizing l c b with
  | nil => rfl
  | cons e m ih =>
    have he : Node.isBlockOfKind kind e = true := hm e (List.mem_cons_self e m)
    have hm' : ∀ x ∈ m, Node.isBlockOfKind kind x = true :=
      fun x hx => hm x (List.mem_cons_of_mem e hx)
    have hne : ¬(n == e) := by
      intro hbe
      have : n = e := by simpa using hbe
      rw [this, he] at hn
      exact Bool.true_eq_false ▸ hn
    have hetype : (e.typeLabel == kind) = true := by
      have heb : e.isBlock = true := by
        cases e with
        | block t bd => rfl
        | other cn => simp [Node.isBlockOfKind] at he
      rw [typeLabel_eq_iff_isBlockOfKind kind e heb]
      exact he
    simp only [List.foldl_cons, extractStep, hetype, if_true]
    rw [List.erase_cons_tail (by simpa using hne)]
    exact ih hm' (l.erase e) (c + 1) true

/-- Folding the removal step over exactly the matching blocks of `l`,
starting from body `l`, removes exactly those blocks (leaving the others in
order), counts them, and sets the flag iff there was at least one. -/
theorem foldl_extractStep_spec (kind : String) (l : List Node) (c : Nat) (b : Bool) :
    (l.filter (Node.isBlockOfKind kind)).foldl (extractStep kind) ⟨l, c, b⟩
      = ⟨l.filter (fun n => !(Node.isBlockOfKind kind n)),
         c + (l.filter (Node.isBlockOfKind kind)).length,
         b || !(l.filter (Node.isBlockOfKind kind)).isEmpty⟩ := by
  induction l generalizing c b with
  | nil => simp [List.filter_nil]
  | cons n l ih =>
    by_cases hk : Node.isBlockOfKind kind n = true
    · rw [List.filter_cons_of_pos hk]
      simp only [List.foldl_cons, extractStep]
      have hnb : n.isBlock = true := by
        cases n with
        | block t bd => rfl
        | other cn => simp [Node.isBlockOfKind] at hk
      have ht : (n.typeLabel == kind) = true := by
        rw [typeLabel_eq_iff_isBlockOfKind kind n hnb]; exact hk
      simp only [ht, if_true, List.erase_cons_head]
      rw [ih (c + 1) true]
      simp only [ExtractState.mk.injEq, List.length_cons, List.isEmpty_cons]
      refine ⟨?_, by omega, by simp⟩
      rw [List.filter_cons_of_neg (by simp [hk])]
    · have hk' : Node.isBlockOfKind kind n = false := Bool.not_eq_true _ ▸ hk
      rw [List.filter_cons_of_neg (by simpa using hk)]
      rw [foldl_extractStep_cons kind n hk' _ (fun x hx => List.mem_filter.1 hx |>.2) l c b]
      rw [ih c b]
      have hfilt : (n :: l).filter (fun x => !(Node.isBlockOfKind kind x))
          = n :: l.filter (fun x => !(Node.isBlockOfKind kind x)) := by
        rw [List.filter_cons_of_pos (by simp [hk'])]
      rw [hfilt]

/-- Characterization of the whole removal loop: the resulting body is the
original with exactly the `kind`-typed top-level blocks filtered out (all
other nodes kept in their original relative order), the count is the number
of such blocks, and the modified flag is set iff there was at least one. -/
theorem extractBlocks_eq (doc : List Node) (kind : String) :
    extractBlocks doc kind
      = ⟨doc.filter (fun n => !(Node.isBlockOfKind kind n)),
         (doc.filter (Node.isBlockOfKind kind)).length,
         !(doc.filter (Node.isBlockOfKind kind)).isEmpty⟩ := by
  unfold extractBlocks
  rw [foldl_extractStep_filter kind _ (fun n hn => (List.mem_filter.1 hn).2) _]
  have hff : (doc.filter Node.isBlock).filter (Node.isBlockOfKind kind)
      = doc.filter (Node.isBlockOfKind kind) := by
    rw [List.filter_filter]
    congr 1
    funext n
    cases n with
    | block t b => simp [Node.isBlockOfKind, Node.isBlock]
    | other c => rfl
  rw [hff, foldl_extractStep_spec kind doc 0 false]
  simp

/-!
## Whitespace normalizer

`Stats.NormalizeWhitespace` and the blank-line normalizer it gates are
exercised by the repository's tests (`TestConsecutiveMovedBlocks`,
`TestWhitespaceNormalizationFlag`) but the function itself is not among the
sources; it is modelled from the spec below.
-/

/-- Modelled from the spec: a line is blank if it is zero-length or consists
entirely of horizontal whitespace (spaces, tabs). The normalizer's source is
missing from the repository snapshot (only its tests reference it). -/
def isBlankLine (l : List Char) : Bool := l.all (fun c => c == ' ' || c == '\t')

/-- Modelled from the spec: a maximal run of blank lines of length at least 3
is replaced by a single (empty) blank line; runs of length 1 or 2 are kept. -/
def flushRun (run : List (List Char)) : List (List Char) :=
  if 3 ≤ run.length then [[]] else run

/-- Modelled from the spec: walk the lines left to right, accumulating the
current run of blank lines (in reverse) and flushing it at each non-blank
line and at the end. -/
def normGo : List (List Char) → List (List Char) → List (List Char)
  | pending, [] => flushRun pending.reverse
  | pending, l :: ls =>
      if isBlankLine l then normGo (l :: pending) ls
      else flushRun pending.reverse ++ l :: normGo [] ls

/-- Modelled from the spec: the whitespace normalizer on a list of lines. -/
def normalizeLines (ls : List (List Char)) : List (List Char) := normGo [] ls

/-- Split a character stream into its lines (separator a newline). -/
def splitLines : List Char → List (List Char)
  | [] => [[]]
  | c :: cs =>
      if c = '\n' then [] :: splitLines cs
      else
        match splitLines cs with
        | [] => [[c]]
        | l :: ls => (c :: l) :: ls

/-- Rejoin lines with newline separators (inverse of `splitLines`). -/
def joinLines : List (List Char) → List Char
  | [] => []
  | [l] => l
  | l :: ls => l ++ '\n' :: joinLines ls

/-- Modelled from the spec: the whitespace normalizer on a whole text. -/
def normalizeWhitespace (s : String) : String :=
  String.mk (joinLines (normalizeLines (splitLines s.data)))

theorem flushRun_ne_nil (run : List (List Char)) (h : run ≠ []) : flushRun run ≠ [] := by
  unfold flushRun
  split
  · simp
  · exact h

theorem flushRun_blank (run : List (List Char)) (h : ∀ l ∈ run, isBlankLine l = true) :
    ∀ l ∈ flushRun run, isBlankLine l = true := by
  unfold flushRun
  split
  · intro l hl
    simp only [List.mem_singleton] at hl
    rw [hl]
    rfl
  · exact h

theorem flushRun_idem (run : List (List Char)) : flushRun (flushRun run) = flushRun run := by
  unfold flushRun
  split
  · simp
  · next h => simp only [if_neg h]

/-- A non-blank head passes through the normalizer unchanged. -/
theorem normalizeLines_cons_not_blank (l : List Char) (ls : List (List Char))
    (h : isBlankLine l = false) :
    normalizeLines (l :: ls) = l :: normalizeLines ls := by
  simp [normalizeLines, normGo, h, flushRun]

/-- Blank lines at the head of the input are accumulated into `pending`. -/
theorem normGo_blank_accum (run : List (List Char))
    (hrun : ∀ l ∈ run, isBlankLine l = true) (pending tail : List (List Char)) :
    normGo pending (run ++ tail) = normGo (run.reverse ++ pending) tail := by
  induction run generalizing pending with
  | nil => simp
  | cons l run ih =>
    have hl : isBlankLine l = true := hrun l (List.mem_cons_self l run)
    have hrun' : ∀ x ∈ run, isBlankLine x = true :=
      fun x hx => hrun x (List.mem_cons_of_mem l hx)
    simp only [List.cons_append, normGo, hl, if_true, List.append_eq]
    rw [ih hrun' (l :: pending)]
    simp [List.append_assoc]

/-- A maximal blank run at the head of the input is flushed in one piece. -/
theorem normalizeLines_blank_run (run tail : List (List Char))
    (hrun : ∀ l ∈ run, isBlankLine l = true)
    (htail : ∀ l ∈ tail.take 1, isBlankLine l = false) :
    normalizeLines (run ++ tail) = flushRun run ++ normalizeLines tail := by
  unfold normalizeLines
  rw [normGo_blank_accum run hrun [] tail]
  cases tail with
  | nil =>
    simp [normGo, flushRun]
  | cons t ts =>
    have ht : isBlankLine t = false := htail t (by simp)
    simp [normGo, ht, flushRun]

/-- Non-blank lines before the rest pass through unchanged. -/
theorem normalizeLines_append_not_blank (pre rest : List (List Char))
    (hpre : ∀ l ∈ pre, isBlankLine l = false) :
    normalizeLines (pre ++ rest) = pre ++ normalizeLines rest := by
  induction pre with
  | nil => rfl
  | cons l pre ih =>
    have hl : isBlankLine l = false := hpre l (List.mem_cons_self l pre)
    have hpre' : ∀ x ∈ pre, isBlankLine x = false :=
      fun x hx => hpre x (List.mem_cons_of_mem l hx)
    rw [List.cons_append, normalizeLines_cons_not_blank l _ hl, ih hpre']
    rfl

/-- The normalizer keeps a non-blank (or absent) head non-blank. -/
theorem normalizeLines_head_not_blank (ls : List (List Char))
    (h : ∀ l ∈ ls.take 1, isBlankLine l = false) :
    ∀ l ∈ (normalizeLines ls).take 1, isBlankLine l = false := by
  cases ls with
  | nil =>
    intro l hl
    simp [normalizeLines, normGo, flushRun] at hl
  | cons t ts =>
    have ht : isBlankLine t = false := h t (by simp)
    rw [normalizeLines_cons_not_blank t ts ht]
    intro l hl
    simp only [List.take_succ_cons, List.take_zero, List.mem_singleton] at hl
    rw [hl]
    exact ht

/-- Every line produced by `normGo` is a pending line, an input line, or the
empty line inserted for a collapsed run. -/
theorem normGo_mem (pending xs : List (List Char)) (l : List Char)
    (h : l ∈ normGo pending xs) : l ∈ pending ∨ l ∈ xs ∨ l = [] := by
  induction xs generalizing pending with
  | nil =>
    simp only [normGo, flushRun] at h
    split at h
    · simp only [List.mem_singleton] at h
      exact Or.inr (Or.inr h)
    · exact Or.inl (by simpa using h)
  | cons x xs ih =>
    simp only [normGo] at h
    split at h
    · rcases ih (x :: pending) h with h1 | h2 | h3
      · rcases List.mem_cons.1 h1 with h4 | h5
        · exact Or.inr (Or.inl (by simp [h4]))
        · exact Or.inl h5
      · exact Or.inr (Or.inl (List.mem_cons_of_mem x h2))
      · exact Or.inr (Or.inr h3)
    · rcases List.mem_append.1 h with h1 | h2
      · unfold flushRun at h1
        split at h1
        · simp only [List.mem_singleton] at h1
          exact Or.inr (Or.inr h1)
        · exact Or.inl (by simpa using h1)
      · rcases List.mem_cons.1 h2 with h3 | h4
        · exact Or.inr (Or.inl (by simp [h3]))
        · rcases ih [] h4 with h5 | h6 | h7
          · simp at h5
          · exact Or.inr (Or.inl (List.mem_cons_of_mem x h6))
          · exact Or.inr (Or.inr h7)

/-- `normGo` never returns the empty list unless both inputs are empty. -/
theorem normGo_ne_nil (pending xs : List (List Char))
    (h : pending ≠ [] ∨ xs ≠ []) : normGo pending xs ≠ [] := by
  induction xs generalizing pending with
  | nil =>
    rcases h with h1 | h2
    · simp only [normGo]
      exact flushRun_ne_nil _ (by simpa using h1)
    · exact absurd rfl h2
  | cons x xs ih =>
    simp only [normGo]
    split
    · exact ih (x :: pending) (Or.inl (by simp))
    · simp

/-- The normalizer maps a nonempty line list to a nonempty line list. -/
theorem normalizeLines_ne_nil (ls : List (List Char)) (h : ls ≠ []) :
    normalizeLines ls ≠ [] :=
  normGo_ne_nil [] ls (Or.inr h)

theorem dropWhile_length_le {α : Type} (p : α → Bool) (l : List α) :
    (l.dropWhile p).length ≤ l.length := by
  induction l with
  | nil => simp
  | cons x xs ih =>
    rw [List.dropWhile_cons]
    split
    · exact Nat.le_trans ih (Nat.le_succ _)
    · exact Nat.le_refl _

theorem dropWhile_head_not {α : Type} (p : α → Bool) (l : List α) :
    ∀ x ∈ (l.dropWhile p).take 1, p x = false := by
  induction l with
  | nil => intro x hx; simp at hx
  | cons y ys ih =>
    rw [List.dropWhile_cons]
    split
    · exact ih
    · next hy =>
      intro x hx
      simp only [List.take_succ_cons, List.take_zero, List.mem_singleton] at hx
      rw [hx]
      exact Bool.not_eq_true _ ▸ hy

/-- Idempotence of the line normalizer, by strong induction on length. -/
theorem normalizeLines_idem_aux :
    ∀ (n : Nat) (ls : List (List Char)), ls.length ≤ n →
      normalizeLines (normalizeLines ls) = normalizeLines ls := by
  intro n
  induction n with
  | zero =>
    intro ls hls
    have : ls = [] := List.length_eq_zero.1 (Nat.le_zero.1 hls)
    rw [this]
    rfl
  | succ m ih =>
    intro ls hls
    cases ls with
    | nil => rfl
    | cons l ls' =>
      by_cases hb : isBlankLine l = true
      · -- head of a blank run: decompose into the maximal run and its tail
        set run := (l :: ls').takeWhile isBlankLine with hrundef
        set tail := (l :: ls').dropWhile isBlankLine with htaildef
        have hsplit : run ++ tail = l :: ls' := List.takeWhile_append_dropWhile ..
        have hrun : ∀ x ∈ run, isBlankLine x = true :=
          fun x hx => List.mem_takeWhile_imp hx
        have htail : ∀ x ∈ tail.take 1, isBlankLine x = false :=
          dropWhile_head_not isBlankLine (l :: ls')
        have htlen : tail.length ≤ m := by
          have : tail = ls'.dropWhile isBlankLine := by
            rw [htaildef, List.dropWhile_cons, if_pos hb]
          rw [this]
          have h1 : (ls'.dropWhile isBlankLine).length ≤ ls'.length :=
            dropWhile_length_le isBlankLine ls'
          have h2 : ls'.length ≤ m := by
            simpa using Nat.le_of_succ_le_succ hls
          exact Nat.le_trans h1 h2
        rw [← hsplit, normalizeLines_blank_run run tail hrun htail]
        have hfr : ∀ x ∈ flushRun run, isBlankLine x = true := flushRun_blank run hrun
        have hnt : ∀ x ∈ (normalizeLines tail).take 1, isBlankLine x = false :=
          normalizeLines_head_not_blank tail htail
        rw [normalizeLines_blank_run (flushRun run) (normalizeLines tail) hfr hnt]
        rw [flushRun_idem, ih tail htlen]
      · have hb' : isBlankLine l = false := Bool.not_eq_true _ ▸ hb
        rw [normalizeLines_cons_not_blank l ls' hb',
            normalizeLines_cons_not_blank l _ hb']
        have h2 : ls'.length ≤ m := by simpa using Nat.le_of_succ_le_succ hls
        rw [ih ls' h2]

/-- The line normalizer is idempotent. -/
theorem normalizeLines_idem (ls : List (List Char)) :
    normalizeLines (normalizeLines ls) = normalizeLines ls :=
  normalizeLines_idem_aux ls.length ls (Nat.le_refl _)

theorem splitLines_ne_nil (cs : List Char) : splitLines cs ≠ [] := by
  induction cs with
  | nil => simp [splitLines]
  | cons c cs ih =>
    unfold splitLines
    split
    · simp
    · split
      · simp
      · simp

theorem splitLines_no_newline (cs : List Char) :
    ∀ l ∈ splitLines cs, '\n' ∉ l := by
  induction cs with
  | nil =>
    intro l hl
    simp only [splitLines, List.mem_singleton] at hl
    simp [hl]
  | cons c cs ih =>
    intro l hl
    rw [splitLines.eq_2] at hl
    by_cases hc : c = '\n'
    · rw [if_pos hc] at hl
      rcases List.mem_cons.1 hl with h1 | h2
      · simp [h1]
      · exact ih l h2
    · rw [if_neg hc] at hl
      cases hsp : splitLines cs with
      | nil => exact absurd hsp (splitLines_ne_nil cs)
      | cons l0 ls0 =>
        rw [hsp] at hl
        rcases List.mem_cons.1 hl with h1 | h2
        · rw [h1]
          intro hmem
          rcases List.mem_cons.1 hmem with h3 | h4
          · exact hc h3.symm
          · exact (ih l0 (hsp ▸ List.mem_cons_self l0 ls0)) h4
        · exact ih l (hsp ▸ List.mem_cons_of_mem l0 h2)

/-- A newline-free character list splits into the single line it is. -/
theorem splitLines_eq_single (l : List Char) (h : '\n' ∉ l) :
    splitLines l = [l] := by
  induction l with
  | nil => rfl
  | cons c cs ih =>
    have hc : c ≠ '\n' := fun hcc => h (hcc ▸ List.mem_cons_self c cs)
    have hcs : '\n' ∉ cs := fun hmem => h (List.mem_cons_of_mem c hmem)
    unfold splitLines
    rw [if_neg hc, ih hcs]

/-- Splitting a newline-free line followed by a newline and a rest yields the
line followed by the split of the rest. -/
theorem splitLines_append (l rest : List Char) (h : '\n' ∉ l) :
    splitLines (l ++ '\n' :: rest) = l :: splitLines rest := by
  induction l with
  | nil =>
    simp [splitLines]
  | cons c cs ih =>
    have hc : c ≠ '\n' := fun hcc => h (hcc ▸ List.mem_cons_self c cs)
    have hcs : '\n' ∉ cs := fun hmem => h (List.mem_cons_of_mem c hmem)
    rw [List.cons_append]
    rw [splitLines.eq_2, if_neg hc, ih hcs]

/-- `splitLines` is a left inverse of `joinLines` on nonempty lists of
newline-free lines. -/
theorem splitLines_joinLines (ls : List (List Char)) (h1 : ls ≠ [])
    (h2 : ∀ l ∈ ls, '\n' ∉ l) : splitLines (joinLines ls) = ls := by
  induction ls with
  | nil => exact absurd rfl h1
  | cons l ls ih =>
    cases ls with
    | nil =>
      show splitLines (joinLines [l]) = [l]
      unfold joinLines
      exact splitLines_eq_single l (h2 l (List.mem_cons_self l []))
    | cons l2 ls2 =>
      have hjoin : joinLines (l :: l2 :: ls2) = l ++ '\n' :: joinLines (l2 :: ls2) := rfl
      rw [hjoin, splitLines_append l _ (h2 l (List.mem_cons_self l _))]
      rw [ih (by simp) (fun x hx => h2 x (List.mem_cons_of_mem l hx))]

/-- C8: the whitespace normalization operation is idempotent on every input
text: `normalize(normalize(s)) == normalize(s)`. (The normalizer itself is
modelled from the spec, its source being absent from the snapshot.) -/
theorem normalizeWhitespace_idem (s : String) :
    normalizeWhitespace (normalizeWhitespace s) = normalizeWhitespace s := by
  have hne : normalizeLines (splitLines s.data) ≠ [] :=
    normalizeLines_ne_nil _ (splitLines_ne_nil _)
  have hnn : ∀ l ∈ normalizeLines (splitLines s.data), '\n' ∉ l := by
    intro l hl
    rcases normGo_mem [] _ l hl with h1 | h2 | h3
    · simp at h1
    · exact splitLines_no_newline s.data l h2
    · simp [h3]
  unfold normalizeWhitespace
  have hdata : (String.mk (joinLines (normalizeLines (splitLines s.data)))).data
      = joinLines (normalizeLines (splitLines s.data)) := rfl
  rw [hdata, splitLines_joinLines _ hne hnn, normalizeLines_idem]

/-- C3: every maximal run of 3 or more consecutive blank lines (lines empty
or containing only spaces and tabs) is replaced by exactly one blank line,
and runs of length 1 or 2 are left unchanged; non-blank context before and
after the run passes through untouched. (Normalizer modelled from the spec,
its source being absent from the snapshot.) -/
theorem normalizeLines_blank_run_collapse (pre run tail : List (List Char))
    (hpre : ∀ l ∈ pre, isBlankLine l = false)
    (hrun : ∀ l ∈ run, isBlankLine l = true)
    (htail : ∀ l ∈ tail.take 1, isBlankLine l = false) :
    normalizeLines (pre ++ (run ++ tail))
      = pre ++ ((if 3 ≤ run.length then [[]] else run) ++ normalizeLines tail) := by
  rw [normalizeLines_append_not_blank pre _ hpre,
      normalizeLines_blank_run run tail hrun htail]
  rfl

/-- Witness for C3: a run of exactly 5 blank lines between the non-blank
lines "x" and "y" collapses to a single blank line. -/
theorem normalizeLines_blank_run_collapse_witness :
    (∀ l ∈ [['x']], isBlankLine l = false) ∧
    (∀ l ∈ ([[], [], [], [], []] : List (List Char)), isBlankLine l = true) ∧
    (∀ l ∈ ([['y']] : List (List Char)).take 1, isBlankLine l = false) ∧
    normalizeLines ([['x']] ++ (([[], [], [], [], []] : List (List Char)) ++ [['y']]))
      = [['x']] ++ ((if 3 ≤ ([[], [], [], [], []] : List (List Char)).length
          then [[]] else [[], [], [], [], []]) ++ normalizeLines [['y']]) :=
  ⟨by decide, by decide, by decide,
   normalizeLines_blank_run_collapse [['x']] [[], [], [], [], []] [['y']]
     (by decide) (by decide) (by decide)⟩

/-- C1: for a parsed document containing N top-level blocks of the target
kind (here `"moved"`, N possibly 0) interleaved with other content, the
block-removal loop of `processFile` removes exactly N such blocks (the count
equals N) and leaves every other top-level node in its original relative
order (the resulting body is the order-preserving filter of the original);
in particular no adjacent matching block is skipped or processed twice. -/
theorem extractBlocks_removes_exactly (doc : List Node) (N : Nat)
    (hN : N = (doc.filter (Node.isBlockOfKind "moved")).length) :
    (extractBlocks doc "moved").count = N ∧
    (extractBlocks doc "moved").body
      = doc.filter (fun n => !(Node.isBlockOfKind "moved" n)) := by
  rw [extractBlocks_eq]
  exact ⟨hN.symm, rfl⟩

/-- Witness for C1: three `moved` blocks, two of them adjacent, interleaved
with other content: exactly 3 are removed and the others stay in order. -/
theorem extractBlocks_removes_exactly_witness :
    (3 = (([.other "provider", .block "moved" "a", .block "moved" "b",
            .block "resource" "r", .block "moved" "c"] : List Node).filter
            (Node.isBlockOfKind "moved")).length) ∧
    ((extractBlocks [.other "provider", .block "moved" "a", .block "moved" "b",
        .block "resource" "r", .block "moved" "c"] "moved").count = 3 ∧
     (extractBlocks [.other "provider", .block "moved" "a", .block "moved" "b",
        .block "resource" "r", .block "moved" "c"] "moved").body
       = ([.other "provider", .block "moved" "a", .block "moved" "b",
           .block "resource" "r", .block "moved" "c"] : List Node).filter
           (fun n => !(Node.isBlockOfKind "moved" n))) :=
  ⟨by decide,
   extractBlocks_removes_exactly
     [.other "provider", .block "moved" "a", .block "moved" "b",
      .block "resource" "r", .block "moved" "c"] 3 (by decide)⟩

/-- C5: a top-level block is removed if and only if its kind label equals
the target kind exactly (case-sensitive string equality, no pattern
matching); non-block nodes — attributes and comments, including comments
whose text mentions the target kind — are never candidates and always
survive; surviving blocks keep their opaque bodies (hence any blocks nested
inside them) untouched, since only top-level blocks are ever inspected. -/
theorem extractBlocks_kind_exact (doc : List Node) (kind : String) :
    (extractBlocks doc kind).body
        = doc.filter (fun n => !(Node.isBlockOfKind kind n)) ∧
    (∀ t b, Node.block t b ∈ (extractBlocks doc kind).body ↔
        (Node.block t b ∈ doc ∧ t ≠ kind)) ∧
    (∀ c, Node.other c ∈ (extractBlocks doc kind).body ↔ Node.other c ∈ doc) := by
  rw [extractBlocks_eq]
  refine ⟨rfl, ?_, ?_⟩
  · intro t b
    simp [List.mem_filter, Node.isBlockOfKind]
  · intro c
    simp [List.mem_filter, Node.isBlockOfKind]

/-!
## The per-file pipeline and the batch driver

`processFile` of `cmd/terraform-moved-remover/main.go`: read, parse, remove
`moved` blocks, count the file as processed, then either (non-dry-run)
format, optionally normalize, and write back when the file was modified or
the final bytes differ, or (dry-run) only update the statistics. The read
and parse results are supplied as input (`FileInput`), since file I/O and
the HCL parser are external. The `NormalizeWhitespace` gating is modelled
from the spec (its source is absent from the snapshot, only its tests
remain); with the flag false this is exactly the `processFile` of the
sources.
-/

/-- The `Stats` struct of main.go (timing fields omitted); the two external
flags travel with it exactly as in the Go struct. The whitespace flag is
named `normalizeWhitespaceFlag` to avoid clashing with the normalizer
function. -/
structure Stats where
  filesProcessed : Nat
  filesModified : Nat
  movedBlocksRemoved : Nat
  dryRun : Bool
  normalizeWhitespaceFlag : Bool
deriving Repr, DecidableEq

/-- The outcome of read + parse for one file, supplied by the external
environment: a read failure, a parse failure with the parser diagnostic, or
a parsed document together with the original bytes. -/
inductive FileInput where
  | readError (path msg : String)
  | parseError (path content diag : String)
  | parsed (path content : String) (doc : List Node)
deriving Repr, DecidableEq

/-- Per-file outcome: the updated statistics, and the bytes written back to
disk (`none` when the file is left untouched). -/
structure ProcessOutcome where
  stats : Stats
  written : Option String
deriving Repr, DecidableEq

/-- The body of `processFile` after a successful parse: remove the `moved`
blocks, bump `FilesProcessed`, then follow the Go branch structure for the
write-back and the remaining statistics. -/
def processParsed (render : List Node → String) (format : String → String)
    (content : String) (doc : List Node) (stats : Stats) : ProcessOutcome :=
  let st := extractBlocks doc "moved"
  let fileModified := st.modified
  let movedBlocksCount := st.count
  let stats1 := { stats with filesProcessed := stats.filesProcessed + 1 }
  if !stats1.dryRun then
    let formatted := format (render st.body)
    let finalContent :=
      if stats1.normalizeWhitespaceFlag then normalizeWhitespace formatted else formatted
    if fileModified || finalContent != content then
      { stats := { stats1 with
          filesModified := stats1.filesModified + 1,
          movedBlocksRemoved := stats1.movedBlocksRemoved +
            (if fileModified then movedBlocksCount else 0) },
        written := some finalContent }
    else
      { stats := stats1, written := none }
  else
    if fileModified then
      { stats := { stats1 with
          filesModified := stats1.filesModified + 1,
          movedBlocksRemoved := stats1.movedBlocksRemoved + movedBlocksCount },
        written := none }
    else
      { stats := stats1, written := none }

/-- `processFile`: the error paths return before touching any statistics
(the Go code returns on read and parse failure before `FilesProcessed++`). -/
def processFile (render : List Node → String) (format : String → String)
    (input : FileInput) (stats : Stats) : Except String ProcessOutcome :=
  match input with
  | .readError path msg => .error ("error reading file " ++ path ++ ": " ++ msg)
  | .parseError path _ diag => .error ("error parsing " ++ path ++ ": " ++ diag)
  | .parsed _ content doc => .ok (processParsed render format content doc stats)

/-- State of the batch loop in `main`: the running statistics, the per-file
disk effect (in file order, `none` = file untouched), and the error lines
printed so far. -/
structure RunState where
  stats : Stats
  written : List (Option String)
  errors : List String
deriving Repr, DecidableEq

/-- One iteration of the batch loop in `main`: report a failure and keep
going, or take the updated statistics and record the disk effect. -/
def runStep (render : List Node → String) (format : String → String)
    (st : RunState) (input : FileInput) : RunState :=
  match processFile render format input st.stats with
  | .error e => { st with written := st.written ++ [none], errors := st.errors ++ [e] }
  | .ok out => { stats := out.stats, written := st.written ++ [out.written],
                 errors := st.errors }

/-- The batch loop of `main` over the discovered files. -/
def runFiles (render : List Node → String) (format : String → String)
    (inputs : List FileInput) (st : RunState) : RunState :=
  inputs.foldl (runStep render format) st

/-- If a document has no `moved` top-level blocks, the removal loop leaves
the body unchanged, the count at 0 and the modified flag false. -/
theorem extractBlocks_of_no_moved (doc : List Node)
    (hzero : doc.filter (Node.isBlockOfKind "moved") = []) :
    extractBlocks doc "moved" = ⟨doc, 0, false⟩ := by
  rw [extractBlocks_eq]
  have hall : ∀ a ∈ doc, (Node.isBlockOfKind "moved" a) = false := by
    intro a ha
    by_cases hcontra : Node.isBlockOfKind "moved" a = true
    · have : a ∈ doc.filter (Node.isBlockOfKind "moved") :=
        List.mem_filter.2 ⟨ha, hcontra⟩
      rw [hzero] at this
      exact absurd this (List.not_mem_nil a)
    · exact Bool.not_eq_true _ ▸ hcontra
  have hbody : doc.filter (fun n => !(Node.isBlockOfKind "moved" n)) = doc :=
    List.filter_eq_self.2 (fun a ha => by simp [hall a ha])
  rw [hbody, hzero]
  rfl

/-- C2: for an input whose document contains zero top-level `moved` blocks
and whose formatting is already canonical (rendering the untouched tree
reproduces the input, the formatter and the normalizer leave it unchanged),
the pipeline produces output byte-identical to the input, the file is not
written, and `FilesModified` is not incremented (only `FilesProcessed` is). -/
theorem processParsed_noop_safety (render : List Node → String)
    (format : String → String) (content : String) (doc : List Node) (s : Stats)
    (hdry : s.dryRun = false)
    (hzero : doc.filter (Node.isBlockOfKind "moved") = [])
    (hrender : render doc = content)
    (hformat : format content = content)
    (hnorm : normalizeWhitespace content = content) :
    (if s.normalizeWhitespaceFlag
        then normalizeWhitespace (format (render (extractBlocks doc "moved").body))
        else format (render (extractBlocks doc "moved").body)) = content ∧
    processParsed render format content doc s
      = { stats := { s with filesProcessed := s.filesProcessed + 1 },
          written := none } := by
  constructor
  · rw [extractBlocks_of_no_moved doc hzero]
    cases hflag : s.normalizeWhitespaceFlag with
    | true => simp [hrender, hformat, hnorm]
    | false => simp [hrender, hformat]
  · unfold processParsed
    rw [extractBlocks_of_no_moved doc hzero]
    simp only [hdry, hrender, hformat, Bool.not_false, if_true]
    cases hflag : s.normalizeWhitespaceFlag with
    | true => simp [hflag, hnorm]
    | false => simp [hflag]

/-- Witness for C2: a document with one non-block node and no `moved`
blocks, canonical content "a\n": nothing is written, only the processed
count moves. -/
theorem processParsed_noop_safety_witness :
    ((⟨0, 0, 0, false, false⟩ : Stats).dryRun = false) ∧
    (([Node.other "x"] : List Node).filter (Node.isBlockOfKind "moved") = []) ∧
    ((fun _ => "a\n") ([Node.other "x"] : List Node) = "a\n") ∧
    ((fun t => t) "a\n" = "a\n") ∧
    (normalizeWhitespace "a\n" = "a\n") ∧
    ((if (⟨0, 0, 0, false, false⟩ : Stats).normalizeWhitespaceFlag
        then normalizeWhitespace ((fun t => t) ((fun _ => "a\n")
          (extractBlocks [Node.other "x"] "moved").body))
        else (fun t => t) ((fun _ => "a\n")
          (extractBlocks [Node.other "x"] "moved").body)) = "a\n" ∧
     processParsed (fun _ => "a\n") (fun t => t) "a\n" [Node.other "x"]
        ⟨0, 0, 0, false, false⟩
      = { stats := ⟨1, 0, 0, false, false⟩, written := none }) :=
  ⟨rfl, by decide, rfl, rfl, by decide,
   processParsed_noop_safety (fun _ => "a\n") (fun t => t) "a\n" [Node.other "x"]
     ⟨0, 0, 0, false, false⟩ rfl (by decide) rfl rfl (by decide)⟩

/-- In every branch of `processParsed`, either the removed-block total is
untouched or the file was counted modified. -/
theorem processParsed_mbr_or_fm (render : List Node → String)
    (format : String → String) (content : String) (doc : List Node) (s : Stats) :
    (processParsed render format content doc s).stats.movedBlocksRemoved
        = s.movedBlocksRemoved ∨
    (processParsed render format content doc s).stats.filesModified
        = s.filesModified + 1 := by
  simp only [processParsed]
  repeat' split
  all_goals first | (left; rfl) | (right; rfl)

/-- C6: for every successfully processed file, a strictly increased
removed-block count implies the file was counted modified
(`blocksRemoved > 0 ⇒ modified`); the converse need not hold, since a
formatting-only change also increments `FilesModified` with no removal. -/
theorem processParsed_removed_implies_modified (render : List Node → String)
    (format : String → String) (content : String) (doc : List Node) (s : Stats)
    (h : s.movedBlocksRemoved
        < (processParsed render format content doc s).stats.movedBlocksRemoved) :
    (processParsed render format content doc s).stats.filesModified
      = s.filesModified + 1 := by
  rcases processParsed_mbr_or_fm render format content doc s with h1 | h2
  · rw [h1] at h
    exact absurd h (lt_irrefl _)
  · exact h2

/-- Witness for C6: one `moved` block is removed, and the file is counted
modified. -/
theorem processParsed_removed_implies_modified_witness :
    ((⟨0, 0, 0, false, false⟩ : Stats).movedBlocksRemoved
        < (processParsed (fun _ => "") (fun t => t) "c" [Node.block "moved" "b"]
            ⟨0, 0, 0, false, false⟩).stats.movedBlocksRemoved) ∧
    (processParsed (fun _ => "") (fun t => t) "c" [Node.block "moved" "b"]
        ⟨0, 0, 0, false, false⟩).stats.filesModified
      = (⟨0, 0, 0, false, false⟩ : Stats).filesModified + 1 :=
  ⟨by decide,
   processParsed_removed_implies_modified (fun _ => "") (fun t => t) "c"
     [Node.block "moved" "b"] ⟨0, 0, 0, false, false⟩ (by decide)⟩

/-- C10: when read or parse fails, `processFile` returns the error before
touching any statistics field: `FilesProcessed`, `FilesModified` and
`MovedBlocksRemoved` are all unchanged on the error path, so failed files
are excluded from every reported count. -/
theorem processFile_error_before_stats (render : List Node → String)
    (format : String → String) (p m c d : String) (st : RunState) :
    processFile render format (.readError p m) st.stats
        = .error ("error reading file " ++ p ++ ": " ++ m) ∧
    processFile render format (.parseError p c d) st.stats
        = .error ("error parsing " ++ p ++ ": " ++ d) ∧
    (runStep render format st (.readError p m)).stats = st.stats ∧
    (runStep render format st (.parseError p c d)).stats = st.stats :=
  ⟨rfl, rfl, rfl, rfl⟩

/-- C7: a file whose bytes do not parse makes `processFile` return an error
carrying the parser diagnostic; the batch driver records the error, leaves
that file's disk state untouched (`none` is recorded for it), carries the
statistics over unchanged, and continues with the remaining files. -/
theorem runFiles_parse_error_continues (render : List Node → String)
    (format : String → String) (pre post : List FileInput)
    (p c d : String) (st : RunState) :
    processFile render format (.parseError p c d) (runFiles render format pre st).stats
        = .error ("error parsing " ++ p ++ ": " ++ d) ∧
    runFiles render format (pre ++ FileInput.parseError p c d :: post) st
      = runFiles render format post
          { runFiles render format pre st with
            written := (runFiles render format pre st).written ++ [none],
            errors := (runFiles render format pre st).errors
                ++ ["error parsing " ++ p ++ ": " ++ d] } := by
  constructor
  · rfl
  · unfold runFiles
    rw [List.foldl_append, List.foldl_cons]
    rfl

/-- The per-file statistics increments: they depend only on the file's own
input and the two run-wide flags, never on the running totals. -/
def statDelta (dry normFlag : Bool) (render : List Node → String)
    (format : String → String) (input : FileInput) : Nat × Nat × Nat :=
  match input with
  | .readError _ _ => (0, 0, 0)
  | .parseError _ _ _ => (0, 0, 0)
  | .parsed _ content doc =>
      let st := extractBlocks doc "moved"
      if !dry then
        let formatted := format (render st.body)
        let finalContent := if normFlag then normalizeWhitespace formatted else formatted
        if st.modified || finalContent != content then
          (1, 1, if st.modified then st.count else 0)
        else (1, 0, 0)
      else
        if st.modified then (1, 1, st.count) else (1, 0, 0)

/-- Add a per-file increment onto the running totals (flags untouched). -/
def addDelta (s : Stats) (d : Nat × Nat × Nat) : Stats :=
  { s with filesProcessed := s.filesProcessed + d.1,
           filesModified := s.filesModified + d.2.1,
           movedBlocksRemoved := s.movedBlocksRemoved + d.2.2 }

/-- Every iteration of the batch loop adds the file's own increment to the
running totals. -/
theorem runStep_stats (render : List Node → String) (format : String → String)
    (st : RunState) (i : FileInput) :
    (runStep render format st i).stats
      = addDelta st.stats
          (statDelta st.stats.dryRun st.stats.normalizeWhitespaceFlag render format i) := by
  cases i with
  | readError p m =>
    simp only [runStep, processFile, statDelta, addDelta]
    rfl
  | parseError p c d =>
    simp only [runStep, processFile, statDelta, addDelta]
    rfl
  | parsed p c doc =>
    simp only [runStep, processFile, processParsed, statDelta, addDelta]
    repeat' split
    all_goals rfl

/-- C9: processing files A then B into the shared statistics accumulator
yields the same final totals (`FilesProcessed`, `FilesModified`,
`MovedBlocksRemoved`) as processing B then A: per-file updates are
commutative additions, so file order does not affect the aggregate. -/
theorem runFiles_pair_comm (render : List Node → String)
    (format : String → String) (a b : FileInput) (st : RunState) :
    (runFiles render format [a, b] st).stats.filesProcessed
        = (runFiles render format [b, a] st).stats.filesProcessed ∧
    (runFiles render format [a, b] st).stats.filesModified
        = (runFiles render format [b, a] st).stats.filesModified ∧
    (runFiles render format [a, b] st).stats.movedBlocksRemoved
        = (runFiles render format [b, a] st).stats.movedBlocksRemoved := by
  have key : ∀ (i : FileInput) (s : RunState),
      (runStep render format s i).stats
        = addDelta s.stats
            (statDelta s.stats.dryRun s.stats.normalizeWhitespaceFlag render format i) :=
    fun i s => runStep_stats render format s i
  simp only [runFiles, List.foldl_cons, List.foldl_nil]
  rw [key b (runStep render format st a), key a st,
      key a (runStep render format st b), key b st]
  simp only [addDelta]
  refine ⟨by omega, by omega, by omega⟩

/-- C4 counterexample: on a file with zero removable blocks whose formatting
is not canonical (the formatter output differs from the input), a non-dry
run counts the file in `FilesModified` but a dry run does not, so a dry run
does not always produce the same statistics as a non-dry run: here the dry
run reports 0 files modified and the non-dry run reports 1. -/
theorem processParsed_dry_run_stats_counterexample :
    (processParsed (fun _ => "x") (fun _ => "x\n") "x" [Node.other "x"]
        ⟨0, 0, 0, true, false⟩).stats.filesModified = 0 ∧
    (processParsed (fun _ => "x") (fun _ => "x\n") "x" [Node.other "x"]
        ⟨0, 0, 0, false, false⟩).stats.filesModified = 1 := by
  constructor
  · rfl
  · rfl

/-- C4 (amended): dry-run mode never writes to disk, and it updates
`FilesProcessed` and `MovedBlocksRemoved` exactly as a non-dry run on the
same input would; `FilesModified` also matches whenever at least one block
was removed or the computed final content equals the original bytes — it can
differ only for a formatting-only change, which a non-dry run counts as
modified and a dry run does not. In particular, on a file with 2 removable
blocks a dry run reports 1 file modified and 2 blocks removed with the file
untouched on disk. -/
theorem processParsed_dry_run_amended (render : List Node → String)
    (format : String → String) (content : String) (doc : List Node)
    (sd sn : Stats)
    (hd : sd.dryRun = true) (hn : sn.dryRun = false)
    (hflag : sd.normalizeWhitespaceFlag = sn.normalizeWhitespaceFlag)
    (hfp : sd.filesProcessed = sn.filesProcessed)
    (hfm : sd.filesModified = sn.filesModified)
    (hmbr : sd.movedBlocksRemoved = sn.movedBlocksRemoved) :
    (processParsed render format content doc sd).written = none ∧
    (processParsed render format content doc sd).stats.filesProcessed
      = (processParsed render format content doc sn).stats.filesProcessed ∧
    (processParsed render format content doc sd).stats.movedBlocksRemoved
      = (processParsed render format content doc sn).stats.movedBlocksRemoved ∧
    (((extractBlocks doc "moved").modified = true ∨
        (if sn.normalizeWhitespaceFlag
          then normalizeWhitespace (format (render (extractBlocks doc "moved").body))
          else format (render (extractBlocks doc "moved").body)) = content) →
      (processParsed render format content doc sd).stats.filesModified
        = (processParsed render format content doc sn).stats.filesModified) := by
  simp only [processParsed, hd, hn, hflag, Bool.not_true, Bool.not_false,
    Bool.false_eq_true, if_false, if_true]
  cases hmod : (extractBlocks doc "moved").modified with
  | true =>
    simp only [hmod, Bool.true_or, if_true, hfp, hfm, hmbr]
    simp
  | false =>
    simp only [hmod, Bool.false_or, Bool.false_eq_true, if_false]
    by_cases hfc : (if sn.normalizeWhitespaceFlag
        then normalizeWhitespace (format (render (extractBlocks doc "moved").body))
        else format (render (extractBlocks doc "moved").body)) = content
    · simp only [hfc, bne_self_eq_false, Bool.false_eq_true, if_false, hfp, hfm, hmbr]
      simp
    · have hne : ((if sn.normalizeWhitespaceFlag
          then normalizeWhitespace (format (render (extractBlocks doc "moved").body))
          else format (render (extractBlocks doc "moved").body)) != content) = true := by
        simpa using hfc
      simp only [hne, if_true, hfp, hmbr]
      refine ⟨by simp, by simp, by simp, fun hcase => ?_⟩
      rcases hcase with h1 | h2
      · exact absurd h1 (by simp [hmod])
      · exact absurd h2 hfc

/-- Witness for the amended C4: a file with 2 removable blocks; the dry run
writes nothing, and its statistics agree with the non-dry run (1 file
modified, 2 blocks removed). -/
theorem processParsed_dry_run_amended_witness :
    ((⟨0, 0, 0, true, false⟩ : Stats).dryRun = true) ∧
    ((⟨0, 0, 0, false, false⟩ : Stats).dryRun = false) ∧
    ((processParsed (fun _ => "") (fun t => t) "r"
        [Node.block "moved" "a", Node.block "moved" "b"]
        ⟨0, 0, 0, true, false⟩).written = none ∧
     (processParsed (fun _ => "") (fun t => t) "r"
        [Node.block "moved" "a", Node.block "moved" "b"]
        ⟨0, 0, 0, true, false⟩).stats.filesProcessed
       = (processParsed (fun _ => "") (fun t => t) "r"
            [Node.block "moved" "a", Node.block "moved" "b"]
            ⟨0, 0, 0, false, false⟩).stats.filesProcessed ∧
     (processParsed (fun _ => "") (fun t => t) "r"
        [Node.block "moved" "a", Node.block "moved" "b"]
        ⟨0, 0, 0, true, false⟩).stats.movedBlocksRemoved
       = (processParsed (fun _ => "") (fun t => t) "r"
            [Node.block "moved" "a", Node.block "moved" "b"]
            ⟨0, 0, 0, false, false⟩).stats.movedBlocksRemoved ∧
     (((extractBlocks [Node.block "moved" "a", Node.block "moved" "b"] "moved").modified = true ∨
         (if (⟨0, 0, 0, false, false⟩ : Stats).normalizeWhitespaceFlag
           then normalizeWhitespace ((fun t => t)
             ((fun _ => "") (extractBlocks [Node.block "moved" "a",
                Node.block "moved" "b"] "moved").body))
           else (fun t => t) ((fun _ => "")
             (extractBlocks [Node.block "moved" "a",
                Node.block "moved" "b"] "moved").body)) = "r") →
       (processParsed (fun _ => "") (fun t => t) "r"
          [Node.block "moved" "a", Node.block "moved" "b"]
          ⟨0, 0, 0, true, false⟩).stats.filesModified
         = (processParsed (fun _ => "") (fun t => t) "r"
              [Node.block "moved" "a", Node.block "moved" "b"]
              ⟨0, 0, 0, false, false⟩).stats.filesModified)) ∧
    (processParsed (fun _ => "") (fun t => t) "r"
        [Node.block "moved" "a", Node.block "moved" "b"]
        ⟨0, 0, 0, true, false⟩).stats.filesModified = 1 ∧
    (processParsed (fun _ => "") (fun t => t) "r"
        [Node.block "moved" "a", Node.block "moved" "b"]
        ⟨0, 0, 0, true, false⟩).stats.movedBlocksRemoved = 2 :=
  ⟨rfl, rfl,
   processParsed_dry_run_amended (fun _ => "") (fun t => t) "r"
     [Node.block "moved" "a", Node.block "moved" "b"]
     ⟨0, 0, 0, true, false⟩ ⟨0, 0, 0, false, false⟩ rfl rfl rfl rfl rfl rfl,
   by decide, by decide⟩
